import Mathlib

/-!
Verification of the per-client transaction ledger of the
turboencabulator-3000 repository (src/src/client_accounts.rs,
src/src/transaction.rs).

The Rust code stores account balances as `rust_decimal::Decimal` values.
Every `Decimal` is a mantissa scaled by a power of ten; the operations the
ledger uses (addition, subtraction, comparison, `max` against `dec!(0.0)`,
and `Display` rendering) are embedded below on a mantissa/scale pair `Dec`.
Addition and subtraction rescale both operands to the larger scale and
operate on the mantissas (this is exactly how `Decimal` behaves far away
from its 96-bit overflow bound, which the ledger's 4-fractional-digit
amounts never approach); comparison and equality are value-based.
`Dec.toRat` is the value of a decimal as a rational number, and is used to
state the balance claims exactly as `Decimal`'s value-based `PartialEq`
would.

Transaction amounts enter the Rust program as `f64` and are converted with
`Decimal::from_f64` at every use.  The embedding carries the decimal image
of that conversion directly in the record (field `amount : Dec`); this is
faithful because the code always applies the same total function
`from_f64` to the same stored `f64`, so deposit, withdrawal and chargeback
all see one and the same decimal value.
-/

/-- Model of `rust_decimal::Decimal`: mantissa `m` scaled by `10 ^ s`. -/
structure Dec where
  m : Int
  s : Nat
deriving DecidableEq, Repr

/-- The exact rational value of a decimal. -/
def Dec.toRat (d : Dec) : ℚ := (d.m : ℚ) / 10 ^ d.s

/-- `dec!(0.0)`: the literal used to initialise `total` and `held`
(mantissa 0 at scale 1). -/
def dec00 : Dec := ⟨0, 1⟩

/-- `Decimal` addition: rescale to the larger scale, add mantissas. -/
def Dec.add (a b : Dec) : Dec :=
  ⟨a.m * 10 ^ (max a.s b.s - a.s) + b.m * 10 ^ (max a.s b.s - b.s), max a.s b.s⟩

/-- `Decimal` subtraction: rescale to the larger scale, subtract mantissas. -/
def Dec.sub (a b : Dec) : Dec :=
  ⟨a.m * 10 ^ (max a.s b.s - a.s) - b.m * 10 ^ (max a.s b.s - b.s), max a.s b.s⟩

/-- Value-based `<=` of `Decimal` (`Ord for Decimal` compares rescaled
mantissas). -/
def Dec.ble (a b : Dec) : Bool :=
  decide (a.m * 10 ^ (max a.s b.s - a.s) ≤ b.m * 10 ^ (max a.s b.s - b.s))

/-- Value-based `<` of `Decimal`. -/
def Dec.blt (a b : Dec) : Bool :=
  decide (a.m * 10 ^ (max a.s b.s - a.s) < b.m * 10 ^ (max a.s b.s - b.s))

/-- `Ord::max(a, b)` as used in `available`: returns `a` when `a > b`,
otherwise returns `b` (so on equal values the second operand is kept,
scale included). -/
def Dec.maxD (a b : Dec) : Dec :=
  if Dec.blt b a then a else b

theorem decScaleCast (m : Int) (s t : Nat) (h : s ≤ t) :
    ((m : ℚ) * 10 ^ (t - s)) / 10 ^ t = (m : ℚ) / 10 ^ s := by
  rw [div_eq_div_iff (by positivity) (by positivity), mul_assoc, ← pow_add,
    Nat.sub_add_cancel h]

theorem Dec.toRat_add (a b : Dec) : (Dec.add a b).toRat = a.toRat + b.toRat := by
  unfold Dec.add Dec.toRat
  push_cast
  rw [add_div, decScaleCast a.m a.s (max a.s b.s) (le_max_left _ _),
    decScaleCast b.m b.s (max a.s b.s) (le_max_right _ _)]

theorem Dec.toRat_sub (a b : Dec) : (Dec.sub a b).toRat = a.toRat - b.toRat := by
  unfold Dec.sub Dec.toRat
  push_cast
  rw [sub_div, decScaleCast a.m a.s (max a.s b.s) (le_max_left _ _),
    decScaleCast b.m b.s (max a.s b.s) (le_max_right _ _)]

theorem dec00_toRat : dec00.toRat = 0 := by
  unfold dec00 Dec.toRat
  norm_num

theorem Dec.ble_iff (a b : Dec) : Dec.ble a b = true ↔ a.toRat ≤ b.toRat := by
  unfold Dec.ble Dec.toRat
  rw [decide_eq_true_eq,
    ← decScaleCast a.m a.s (max a.s b.s) (le_max_left _ _),
    ← decScaleCast b.m b.s (max a.s b.s) (le_max_right _ _),
    div_le_div_iff_of_pos_right (by positivity : (0:ℚ) < 10 ^ max a.s b.s)]
  constructor <;> intro h <;> exact_mod_cast h

theorem Dec.blt_iff (a b : Dec) : Dec.blt a b = true ↔ a.toRat < b.toRat := by
  unfold Dec.blt Dec.toRat
  rw [decide_eq_true_eq,
    ← decScaleCast a.m a.s (max a.s b.s) (le_max_left _ _),
    ← decScaleCast b.m b.s (max a.s b.s) (le_max_right _ _),
    div_lt_div_iff_of_pos_right (by positivity : (0:ℚ) < 10 ^ max a.s b.s)]
  constructor <;> intro h <;> exact_mod_cast h

theorem Dec.maxD_toRat (a b : Dec) :
    (Dec.maxD a b).toRat = max a.toRat b.toRat := by
  unfold Dec.maxD
  by_cases h : Dec.blt b a = true
  · rw [if_pos h]
    exact (max_eq_left ((Dec.blt_iff b a).mp h).le).symm
  · rw [if_neg h]
    have hle : a.toRat ≤ b.toRat := by
      by_contra hc
      exact h ((Dec.blt_iff b a).mpr (not_le.mp hc))
    exact (max_eq_right hle).symm

/-!
Transaction model (src/src/transaction.rs).
-/

/-- The transaction types of `transaction.rs`, including the internal
`FailedWithdrawal` marker and the inert `Unknown` fallback that carries the
original label. -/
inductive TransactionType where
  | Deposit
  | Withdrawal
  | Dispute
  | Resolve
  | Chargeback
  | FailedWithdrawal
  | Unknown (label : String)
deriving DecidableEq, Repr

/-- A `Transaction` record: type, client id (`u16`), transaction id (`u32`)
and optional amount.  The `f64` amount of the Rust struct is carried as its
`Decimal::from_f64` image (see the header comment). -/
structure Transaction where
  typ : TransactionType
  client : Nat
  tx : Nat
  amount : Option Dec
deriving DecidableEq, Repr

/-- A history entry: the slimmed record kept per applied (or failed)
transaction id. -/
structure TransactionHistoryRecord where
  typ : TransactionType
  amount : Dec
deriving DecidableEq, Repr

/-!
Finite-map and finite-set helpers.  `HashMap<u32, TransactionHistoryRecord>`
is embedded as an association list with at most one binding per key
(`histInsert` erases the key first, like `HashMap::insert`), and
`HashSet<u32>` as a duplicate-free list.
-/

def histContains : List (Nat × TransactionHistoryRecord) → Nat → Bool
  | [], _ => false
  | p :: rest, k => if p.1 = k then true else histContains rest k

def histLookup : List (Nat × TransactionHistoryRecord) → Nat →
    Option TransactionHistoryRecord
  | [], _ => none
  | p :: rest, k => if p.1 = k then some p.2 else histLookup rest k

def eraseKey : List (Nat × TransactionHistoryRecord) → Nat →
    List (Nat × TransactionHistoryRecord)
  | [], _ => []
  | p :: rest, k => if p.1 = k then eraseKey rest k else p :: eraseKey rest k

/-- `HashMap::insert`: the new binding replaces any old binding of the key. -/
def histInsert (m : List (Nat × TransactionHistoryRecord)) (k : Nat)
    (v : TransactionHistoryRecord) : List (Nat × TransactionHistoryRecord) :=
  (k, v) :: eraseKey m k

def setContains : List Nat → Nat → Bool
  | [], _ => false
  | x :: rest, t => if x = t then true else setContains rest t

/-- `HashSet::insert`: adds the element unless already present. -/
def setInsert (s : List Nat) (t : Nat) : List Nat :=
  if setContains s t then s else t :: s

/-- `HashSet::remove`. -/
def setRemove : List Nat → Nat → List Nat
  | [], _ => []
  | x :: rest, t => if x = t then setRemove rest t else x :: setRemove rest t

theorem eraseKey_of_not_contains (m : List (Nat × TransactionHistoryRecord))
    (k : Nat) (h : histContains m k = false) : eraseKey m k = m := by
  induction m with
  | nil => rfl
  | cons p rest ih =>
    unfold histContains at h
    unfold eraseKey
    by_cases hp : p.1 = k
    · rw [if_pos hp] at h
      exact absurd h (by simp)
    · rw [if_neg hp] at h
      rw [if_neg hp, ih h]

theorem histContains_eraseKey_ne (m : List (Nat × TransactionHistoryRecord))
    (k t : Nat) (hk : k ≠ t) :
    histContains (eraseKey m k) t = histContains m t := by
  induction m with
  | nil => rfl
  | cons p rest ih =>
    simp only [eraseKey]
    by_cases hp : p.1 = k
    · rw [if_pos hp, ih]
      have hpt : ¬ p.1 = t := by rw [hp]; exact hk
      simp only [histContains, if_neg hpt]
    · rw [if_neg hp]
      simp only [histContains]
      by_cases hpt : p.1 = t
      · rw [if_pos hpt, if_pos hpt]
      · rw [if_neg hpt, if_neg hpt, ih]

theorem histContains_insert (m : List (Nat × TransactionHistoryRecord))
    (k t : Nat) (v : TransactionHistoryRecord) :
    histContains (histInsert m k v) t = (if k = t then true else histContains m t) := by
  simp only [histInsert, histContains]
  by_cases hk : k = t
  · simp [hk]
  · rw [if_neg hk, if_neg hk]
    exact histContains_eraseKey_ne m k t hk

theorem histLookup_insert_self (m : List (Nat × TransactionHistoryRecord))
    (k : Nat) (v : TransactionHistoryRecord) :
    histLookup (histInsert m k v) k = some v := by
  simp [histInsert, histLookup]

theorem histContains_iff_lookup (m : List (Nat × TransactionHistoryRecord))
    (k : Nat) : histContains m k = true ↔ ∃ v, histLookup m k = some v := by
  induction m with
  | nil => simp [histContains, histLookup]
  | cons p rest ih =>
    unfold histContains histLookup
    by_cases hp : p.1 = k
    · simp [hp]
    · rw [if_neg hp, if_neg hp]
      exact ih

theorem setContains_remove_self (s : List Nat) (t : Nat) :
    setContains (setRemove s t) t = false := by
  induction s with
  | nil => rfl
  | cons x rest ih =>
    unfold setRemove
    by_cases hx : x = t
    · rw [if_pos hx]; exact ih
    · rw [if_neg hx]
      unfold setContains
      rw [if_neg hx]
      exact ih

theorem setContains_remove_sub (s : List Nat) (x t : Nat)
    (h : setContains (setRemove s x) t = true) : setContains s t = true := by
  induction s with
  | nil => exact absurd h (by simp [setRemove, setContains])
  | cons y rest ih =>
    unfold setRemove at h
    unfold setContains
    by_cases hy : y = x
    · rw [if_pos hy] at h
      by_cases hyt : y = t
      · rw [if_pos hyt]
      · rw [if_neg hyt]; exact ih h
    · rw [if_neg hy] at h
      unfold setContains at h
      by_cases hyt : y = t
      · rw [if_pos hyt]
      · rw [if_neg hyt] at h ⊢
        exact ih h

theorem setContains_insert (s : List Nat) (x t : Nat) :
    setContains (setInsert s x) t =
      (if x = t then true else setContains s t) := by
  unfold setInsert
  by_cases hs : setContains s x = true
  · rw [if_pos hs]
    by_cases hx : x = t
    · rw [if_pos hx]
      subst hx
      exact hs
    · rw [if_neg hx]
  · rw [if_neg hs]
    simp only [setContains]

/-!
`ClientAccount` (src/src/client_accounts.rs, lines 26-155).
-/

/-- The per-client ledger: balance, lock flag, applied-transaction history
and disputed-id set. -/
structure ClientAccount where
  id : Nat
  total : Dec
  locked : Bool
  transaction_history : List (Nat × TransactionHistoryRecord)
  disputed : List Nat
deriving DecidableEq, Repr

/-- `ClientAccount::held`: fold over the disputed set, adding the amount of
every disputed id whose history entry is a `Deposit`; all other disputed
ids contribute nothing. -/
def ClientAccount.held (a : ClientAccount) : Dec :=
  a.disputed.foldl
    (fun acc txid =>
      match histLookup a.transaction_history txid with
      | some hist =>
          if hist.typ = TransactionType.Deposit then Dec.add acc hist.amount
          else acc
      | none => acc)
    dec00

/-- `ClientAccount::available`: `(total - held).max(dec!(0.0))`. -/
def ClientAccount.available (a : ClientAccount) : Dec :=
  Dec.maxD (Dec.sub a.total a.held) dec00

/-- `ClientAccount::new`: zero balance, unlocked, empty history and
disputed set. -/
def ClientAccount.new (id : Nat) : ClientAccount :=
  { id := id
    total := dec00
    locked := false
    transaction_history := []
    disputed := [] }

/-- `ClientAccount::update`: the single state transition, dispatched on the
record's type exactly as the Rust `match` on lines 86-154. -/
def ClientAccount.update (a : ClientAccount) (t : Transaction) : ClientAccount :=
  match t.typ with
  | TransactionType.Deposit =>
      match t.amount with
      | some amt =>
          if histContains a.transaction_history t.tx then a
          else
            { a with
              total := Dec.add a.total amt
              transaction_history :=
                histInsert a.transaction_history t.tx
                  ⟨TransactionType.Deposit, amt⟩ }
      | none => a
  | TransactionType.Withdrawal =>
      match t.amount with
      | some amt =>
          if histContains a.transaction_history t.tx then a
          else
            if Dec.ble dec00 (Dec.sub a.available amt) then
              { a with
                total := Dec.sub a.total amt
                transaction_history :=
                  histInsert a.transaction_history t.tx
                    ⟨TransactionType.Withdrawal, amt⟩ }
            else
              { a with
                transaction_history :=
                  histInsert a.transaction_history t.tx
                    ⟨TransactionType.FailedWithdrawal, amt⟩ }
      | none => a
  | TransactionType.Dispute =>
      if histContains a.transaction_history t.tx then
        { a with disputed := setInsert a.disputed t.tx }
      else a
  | TransactionType.Resolve =>
      { a with disputed := setRemove a.disputed t.tx }
  | TransactionType.Chargeback =>
      if setContains a.disputed t.tx then
        match histLookup a.transaction_history t.tx with
        | some hist =>
            match hist.typ with
            | TransactionType.Deposit =>
                { a with
                  disputed := setRemove a.disputed t.tx
                  locked := true
                  total := Dec.sub a.total hist.amount }
            | TransactionType.Withdrawal =>
                { a with
                  disputed := setRemove a.disputed t.tx
                  locked := true
                  total := Dec.add a.total hist.amount }
            | _ =>
                { a with
                  disputed := setRemove a.disputed t.tx
                  locked := true }
        | none => a
      else a
  | TransactionType.FailedWithdrawal => a
  | TransactionType.Unknown _ => a

/-!
The value of `held` as a plain rational sum over the disputed set.
-/

/-- Contribution of one disputed id to `held`, as a rational. -/
def heldContrib (hist : List (Nat × TransactionHistoryRecord)) (t : Nat) : ℚ :=
  match histLookup hist t with
  | some h => if h.typ = TransactionType.Deposit then h.amount.toRat else 0
  | none => 0

/-- The specified value of `held`: the sum of the amounts of the disputed
ids whose history entry is a `Deposit`. -/
def heldSpec (a : ClientAccount) : ℚ :=
  (a.disputed.map (heldContrib a.transaction_history)).sum

theorem held_fold_toRat (hist : List (Nat × TransactionHistoryRecord)) :
    ∀ (l : List Nat) (init : Dec),
      (l.foldl
        (fun acc txid =>
          match histLookup hist txid with
          | some h =>
              if h.typ = TransactionType.Deposit then Dec.add acc h.amount
              else acc
          | none => acc)
        init).toRat = init.toRat + (l.map (heldContrib hist)).sum
  | [], init => by simp
  | t :: rest, init => by
    rw [List.foldl_cons, held_fold_toRat hist rest, List.map_cons, List.sum_cons]
    have hstep :
        (match histLookup hist t with
          | some h =>
              if h.typ = TransactionType.Deposit then Dec.add init h.amount
              else init
          | none => init).toRat = init.toRat + heldContrib hist t := by
      unfold heldContrib
      cases hl : histLookup hist t with
      | none => simp
      | some h =>
        by_cases hd : h.typ = TransactionType.Deposit
        · simp [hd, Dec.toRat_add]
        · simp [hd]
    rw [hstep]
    ring

/-- `held` computes exactly the specified rational sum. -/
theorem held_toRat (a : ClientAccount) : a.held.toRat = heldSpec a := by
  unfold ClientAccount.held heldSpec
  rw [held_fold_toRat a.transaction_history a.disputed dec00, dec00_toRat,
    zero_add]

/-- `available` computes exactly `max (total - held) 0`. -/
theorem available_toRat (a : ClientAccount) :
    a.available.toRat = max (a.total.toRat - a.held.toRat) 0 := by
  unfold ClientAccount.available
  rw [Dec.maxD_toRat, Dec.toRat_sub, dec00_toRat]

/-!
`ClientAccounts` (src/src/client_accounts.rs, lines 157-202): the ledger
book mapping client ids to accounts.
-/

def mapLookup : List (Nat × ClientAccount) → Nat → Option ClientAccount
  | [], _ => none
  | p :: rest, k => if p.1 = k then some p.2 else mapLookup rest k

def mapContains : List (Nat × ClientAccount) → Nat → Bool
  | [], _ => false
  | p :: rest, k => if p.1 = k then true else mapContains rest k

/-- `HashMap::insert` on the client map: replace in place when the key is
present, otherwise add a binding. -/
def mapInsertB : List (Nat × ClientAccount) → Nat → ClientAccount →
    List (Nat × ClientAccount)
  | [], k, v => [(k, v)]
  | p :: rest, k, v => if p.1 = k then (k, v) :: rest else p :: mapInsertB rest k v

structure ClientAccounts where
  map : List (Nat × ClientAccount)
deriving DecidableEq, Repr

def ClientAccounts.new : ClientAccounts := ⟨[]⟩

/-- `ClientAccounts::update`: look up or lazily create the client's
account, forward the record, and return `Ok(())`.  The Rust method mutates
`self` and returns `Result<(), Box<dyn Error>>`; the embedding passes the
state explicitly, so the result type pairs the possible error with the new
state. -/
def ClientAccounts.update (b : ClientAccounts) (t : Transaction) :
    Except String ClientAccounts :=
  match mapLookup b.map t.client with
  | none =>
      Except.ok
        ⟨mapInsertB b.map t.client
          (ClientAccount.update (ClientAccount.new t.client) t)⟩
  | some acct =>
      Except.ok ⟨mapInsertB b.map t.client (ClientAccount.update acct t)⟩

theorem mapContains_insertB_self (m : List (Nat × ClientAccount)) (k : Nat)
    (v : ClientAccount) : mapContains (mapInsertB m k v) k = true := by
  induction m with
  | nil => simp [mapInsertB, mapContains]
  | cons p rest ih =>
    simp only [mapInsertB]
    by_cases hp : p.1 = k
    · rw [if_pos hp]
      simp [mapContains]
    · rw [if_neg hp]
      simp only [mapContains, if_neg hp]
      exact ih

/-!
CSV export (src/src/client_accounts.rs, lines 59-73 and 189-201).

`write_csv` writes the header row and then serializes every account as the
sequence (id, available, held, total, locked).  `Decimal` values are
serialized through their `Display` form: the mantissa digits with the
decimal point placed `scale` digits from the right (so a value of scale 1
prints one fractional digit, a value of scale 4 prints four).
-/

/-- Decimal digits of a natural number, most significant first.  The first
argument is structural-recursion fuel; any fuel above the digit count
yields the digits (the division chain strictly shrinks). -/
def natDigitsAux : Nat → Nat → List Char
  | 0, _ => []
  | fuel + 1, n =>
      if n < 10 then [Char.ofNat (48 + n)]
      else natDigitsAux fuel (n / 10) ++ [Char.ofNat (48 + n % 10)]

/-- Decimal digits of a natural number, most significant first. -/
def natDigits (n : Nat) : List Char := natDigitsAux (n + 1) n

/-- Characters of `Decimal`'s `Display`: sign, integer digits, and — when
the scale is positive — a point followed by exactly `scale` fractional
digits (zero-padded on the left). -/
def Dec.renderChars (d : Dec) : List Char :=
  if d.s = 0 then
    (if d.m < 0 then ['-'] else []) ++ natDigits d.m.natAbs
  else
    (if d.m < 0 then ['-'] else []) ++ natDigits (d.m.natAbs / 10 ^ d.s) ++
      '.' ::
        (List.replicate (d.s - (natDigits (d.m.natAbs % 10 ^ d.s)).length) '0' ++
          natDigits (d.m.natAbs % 10 ^ d.s))

def Dec.render (d : Dec) : String := String.mk d.renderChars

/-- One CSV row of the `Serialize` impl: id, available, held, total,
locked. -/
def ClientAccount.serializeRow (a : ClientAccount) : String :=
  toString a.id ++ "," ++ Dec.render a.available ++ "," ++
    Dec.render a.held ++ "," ++ Dec.render a.total ++ "," ++
    (if a.locked then "true" else "false")

/-- `ClientAccounts::write_csv`: header row, then one newline-terminated
row per account in map order. -/
def ClientAccounts.write_csv (b : ClientAccounts) : String :=
  "id,available,held,total,locked\n" ++
    String.join (b.map.map (fun p => ClientAccount.serializeRow p.2 ++ "\n"))

/-- Number of characters after the last point of a string (0 when the
string has no point): the rendered count of fractional digits. -/
def revFracLen : List Char → Option Nat
  | [] => none
  | c :: rest => if c = '.' then some 0 else (revFracLen rest).map (· + 1)

def fracDigitCount (str : String) : Nat :=
  (revFracLen str.data.reverse).getD 0

theorem natDigitsAux_length : ∀ (fuel n k : Nat), n < 10 ^ (k + 1) →
    (natDigitsAux fuel n).length ≤ k + 1
  | 0, n, k, _ => by simp [natDigitsAux]
  | fuel + 1, n, k, h => by
    simp only [natDigitsAux]
    by_cases h10 : n < 10
    · rw [if_pos h10]
      simp
    · rw [if_neg h10]
      rw [List.length_append]
      cases k with
      | zero =>
        exfalso
        apply h10
        calc n < 10 ^ (0 + 1) := h
        _ = 10 := by norm_num
      | succ j =>
        have hdiv : n / 10 < 10 ^ (j + 1) := by
          apply Nat.div_lt_of_lt_mul
          calc n < 10 ^ (j + 1 + 1) := h
          _ = 10 * 10 ^ (j + 1) := by ring
        have := natDigitsAux_length fuel (n / 10) j hdiv
        simp only [List.length_singleton]
        omega

theorem natDigitsAux_no_dot : ∀ (fuel n : Nat), ∀ c ∈ natDigitsAux fuel n,
    c ≠ '.'
  | 0, n => by simp [natDigitsAux]
  | fuel + 1, n => by
    intro c hc
    have hdigit : ∀ m, m < 10 → Char.ofNat (48 + m) ≠ '.' := by decide
    simp only [natDigitsAux] at hc
    by_cases h10 : n < 10
    · rw [if_pos h10] at hc
      rw [List.mem_singleton] at hc
      rw [hc]
      exact hdigit n h10
    · rw [if_neg h10] at hc
      rcases List.mem_append.mp hc with hl | hr
      · exact natDigitsAux_no_dot fuel (n / 10) c hl
      · rw [List.mem_singleton] at hr
        rw [hr]
        exact hdigit (n % 10) (Nat.mod_lt n (by norm_num))

theorem natDigits_length_le (k n : Nat) (h : n < 10 ^ (k + 1)) :
    (natDigits n).length ≤ k + 1 :=
  natDigitsAux_length (n + 1) n k h

theorem natDigits_no_dot (n : Nat) : ∀ c ∈ natDigits n, c ≠ '.' :=
  natDigitsAux_no_dot (n + 1) n
  
theorem revFracLen_append (l1 l2 : List Char) (h : ∀ c ∈ l1, c ≠ '.') :
    revFracLen (l1 ++ '.' :: l2) = some l1.length := by
  induction l1 with
  | nil => simp [revFracLen]
  | cons c rest ih =>
    simp only [List.cons_append, revFracLen]
    rw [if_neg (h c (List.mem_cons_self c rest))]
    simp only [List.append_eq]
    rw [ih (fun x hx => h x (List.mem_cons_of_mem c hx))]
    simp

/-- A decimal of positive scale renders with exactly `scale` fractional
digits after the point. -/
theorem fracDigitCount_render (d : Dec) (hs : 0 < d.s) :
    fracDigitCount (Dec.render d) = d.s := by
  unfold fracDigitCount Dec.render Dec.renderChars
  rw [if_neg (by omega : ¬ d.s = 0)]
  have hflen : (natDigits (d.m.natAbs % 10 ^ d.s)).length ≤ d.s := by
    obtain ⟨k, hk⟩ : ∃ k, d.s = k + 1 := ⟨d.s - 1, by omega⟩
    rw [hk]
    exact natDigits_length_le k _ (hk ▸ Nat.mod_lt _ (by positivity))
  have hfrac :
      (List.replicate (d.s - (natDigits (d.m.natAbs % 10 ^ d.s)).length) '0' ++
        natDigits (d.m.natAbs % 10 ^ d.s)).length = d.s := by
    rw [List.length_append, List.length_replicate]
    omega
  have hnodot : ∀ c ∈
      (List.replicate (d.s - (natDigits (d.m.natAbs % 10 ^ d.s)).length) '0' ++
        natDigits (d.m.natAbs % 10 ^ d.s)), c ≠ '.' := by
    intro c hc
    rcases List.mem_append.mp hc with hl | hr
    · rw [List.eq_of_mem_replicate hl]
      decide
    · exact natDigits_no_dot _ c hr
  set frac : List Char :=
    List.replicate (d.s - (natDigits (d.m.natAbs % 10 ^ d.s)).length) '0' ++
      natDigits (d.m.natAbs % 10 ^ d.s) with hfracdef
  set front : List Char :=
    (if d.m < 0 then ['-'] else []) ++ natDigits (d.m.natAbs / 10 ^ d.s)
      with hfrontdef
  have hdata : (String.mk (front ++ '.' :: frac)).data = front ++ '.' :: frac := rfl
  rw [show (if d.m < 0 then ['-'] else []) ++ natDigits (d.m.natAbs / 10 ^ d.s) ++
      '.' :: frac = front ++ '.' :: frac by rw [hfrontdef, List.append_assoc]]
  rw [hdata]
  rw [List.reverse_append, List.reverse_cons]
  rw [List.append_assoc]
  rw [List.singleton_append]
  rw [revFracLen_append frac.reverse (front.reverse)
    (fun c hc => hnodot c (List.mem_reverse.mp hc))]
  simp [hfrac]

/-!
Record constructors for the five input record kinds, and concrete amounts
used by the spec's scenarios.
-/

def depositTx (c txid : Nat) (amt : Dec) : Transaction :=
  ⟨TransactionType.Deposit, c, txid, some amt⟩

def withdrawalTx (c txid : Nat) (amt : Dec) : Transaction :=
  ⟨TransactionType.Withdrawal, c, txid, some amt⟩

def disputeTx (c txid : Nat) : Transaction :=
  ⟨TransactionType.Dispute, c, txid, none⟩

def resolveTx (c txid : Nat) : Transaction :=
  ⟨TransactionType.Resolve, c, txid, none⟩

def chargebackTx (c txid : Nat) : Transaction :=
  ⟨TransactionType.Chargeback, c, txid, none⟩

/-- The decimal 1.1111 (image of `Decimal::from_f64(1.1111)`). -/
def d11111 : Dec := ⟨11111, 4⟩

/-- The decimal 0.1111 (image of `Decimal::from_f64(0.1111)`). -/
def d01111 : Dec := ⟨1111, 4⟩

/-- The decimal 2.0000 (image of `Decimal::from_f64(2.0)`). -/
def d20 : Dec := ⟨20000, 4⟩

/-!
Reachable ledger states and the `disputed ⊆ history` invariant.
-/

/-- The ledger states reachable from a freshly created account by applying
records. -/
inductive Reachable : ClientAccount → Prop where
  | base (id : Nat) : Reachable (ClientAccount.new id)
  | step (a : ClientAccount) (t : Transaction) :
      Reachable a → Reachable (ClientAccount.update a t)


/-!
Definitional equations of `ClientAccount.update`, one per record shape
(`rfl` proofs: they only restate the match arms of the definition).
-/

theorem update_deposit_none (a : ClientAccount) (c x : Nat) :
    ClientAccount.update a ⟨TransactionType.Deposit, c, x, none⟩ = a := rfl

theorem update_deposit_some (a : ClientAccount) (c x : Nat) (amt : Dec) :
    ClientAccount.update a ⟨TransactionType.Deposit, c, x, some amt⟩ =
      if histContains a.transaction_history x = true then a
      else
        { a with
          total := Dec.add a.total amt
          transaction_history :=
            histInsert a.transaction_history x ⟨TransactionType.Deposit, amt⟩ } := rfl

theorem update_withdrawal_none (a : ClientAccount) (c x : Nat) :
    ClientAccount.update a ⟨TransactionType.Withdrawal, c, x, none⟩ = a := rfl

theorem update_withdrawal_some (a : ClientAccount) (c x : Nat) (amt : Dec) :
    ClientAccount.update a ⟨TransactionType.Withdrawal, c, x, some amt⟩ =
      if histContains a.transaction_history x = true then a
      else
        if Dec.ble dec00 (Dec.sub a.available amt) = true then
          { a with
            total := Dec.sub a.total amt
            transaction_history :=
              histInsert a.transaction_history x
                ⟨TransactionType.Withdrawal, amt⟩ }
        else
          { a with
            transaction_history :=
              histInsert a.transaction_history x
                ⟨TransactionType.FailedWithdrawal, amt⟩ } := rfl

theorem update_dispute (a : ClientAccount) (c x : Nat) (am : Option Dec) :
    ClientAccount.update a ⟨TransactionType.Dispute, c, x, am⟩ =
      if histContains a.transaction_history x = true then
        { a with disputed := setInsert a.disputed x }
      else a := rfl

theorem update_resolve (a : ClientAccount) (c x : Nat) (am : Option Dec) :
    ClientAccount.update a ⟨TransactionType.Resolve, c, x, am⟩ =
      { a with disputed := setRemove a.disputed x } := rfl

theorem update_chargeback (a : ClientAccount) (c x : Nat) (am : Option Dec) :
    ClientAccount.update a ⟨TransactionType.Chargeback, c, x, am⟩ =
      if setContains a.disputed x = true then
        match histLookup a.transaction_history x with
        | some hist =>
            match hist.typ with
            | TransactionType.Deposit =>
                { a with
                  disputed := setRemove a.disputed x
                  locked := true
                  total := Dec.sub a.total hist.amount }
            | TransactionType.Withdrawal =>
                { a with
                  disputed := setRemove a.disputed x
                  locked := true
                  total := Dec.add a.total hist.amount }
            | _ =>
                { a with
                  disputed := setRemove a.disputed x
                  locked := true }
        | none => a
      else a := rfl

theorem update_failed (a : ClientAccount) (c x : Nat) (am : Option Dec) :
    ClientAccount.update a ⟨TransactionType.FailedWithdrawal, c, x, am⟩ = a := rfl

theorem update_unknown (a : ClientAccount) (label : String) (c x : Nat)
    (am : Option Dec) :
    ClientAccount.update a ⟨TransactionType.Unknown label, c, x, am⟩ = a := rfl

/-- In every reachable state, every disputed id has a history entry. -/
theorem reachable_disputed_in_history (a : ClientAccount) (hr : Reachable a) :
    ∀ t, setContains a.disputed t = true →
      histContains a.transaction_history t = true := by
  induction hr with
  | base id =>
    intro t ht
    exact absurd ht (by simp [ClientAccount.new, setContains])
  | step a tr _ ih =>
    obtain ⟨typ, c, x, am⟩ := tr
    intro t ht
    cases typ with
    | Deposit =>
      cases am with
      | none =>
        rw [update_deposit_none] at ht ⊢
        exact ih t ht
      | some amt =>
        rw [update_deposit_some] at ht ⊢
        by_cases hc : histContains a.transaction_history x = true
        · rw [if_pos hc] at ht ⊢
          exact ih t ht
        · rw [if_neg hc] at ht ⊢
          have ht2 : setContains a.disputed t = true := ht
          show histContains
            (histInsert a.transaction_history x ⟨TransactionType.Deposit, amt⟩)
            t = true
          rw [histContains_insert]
          by_cases hk : x = t
          · rw [if_pos hk]
          · rw [if_neg hk]
            exact ih t ht2
    | Withdrawal =>
      cases am with
      | none =>
        rw [update_withdrawal_none] at ht ⊢
        exact ih t ht
      | some amt =>
        rw [update_withdrawal_some] at ht ⊢
        by_cases hc : histContains a.transaction_history x = true
        · rw [if_pos hc] at ht ⊢
          exact ih t ht
        · rw [if_neg hc] at ht ⊢
          by_cases hb : Dec.ble dec00 (Dec.sub a.available amt) = true
          · rw [if_pos hb] at ht ⊢
            have ht2 : setContains a.disputed t = true := ht
            show histContains
              (histInsert a.transaction_history x
                ⟨TransactionType.Withdrawal, amt⟩) t = true
            rw [histContains_insert]
            by_cases hk : x = t
            · rw [if_pos hk]
            · rw [if_neg hk]
              exact ih t ht2
          · rw [if_neg hb] at ht ⊢
            have ht2 : setContains a.disputed t = true := ht
            show histContains
              (histInsert a.transaction_history x
                ⟨TransactionType.FailedWithdrawal, amt⟩) t = true
            rw [histContains_insert]
            by_cases hk : x = t
            · rw [if_pos hk]
            · rw [if_neg hk]
              exact ih t ht2
    | Dispute =>
      rw [update_dispute] at ht ⊢
      by_cases hc : histContains a.transaction_history x = true
      · rw [if_pos hc] at ht ⊢
        have ht2 : setContains (setInsert a.disputed x) t = true := ht
        rw [setContains_insert] at ht2
        show histContains a.transaction_history t = true
        by_cases hk : x = t
        · rw [← hk]
          exact hc
        · rw [if_neg hk] at ht2
          exact ih t ht2
      · rw [if_neg hc] at ht ⊢
        exact ih t ht
    | Resolve =>
      rw [update_resolve] at ht ⊢
      have ht2 : setContains (setRemove a.disputed x) t = true := ht
      show histContains a.transaction_history t = true
      exact ih t (setContains_remove_sub _ _ _ ht2)
    | Chargeback =>
      rw [update_chargeback] at ht ⊢
      by_cases hd : setContains a.disputed x = true
      · rw [if_pos hd] at ht ⊢
        revert ht
        cases hl : histLookup a.transaction_history x with
        | none =>
          intro ht
          exact ih t ht
        | some hist =>
          obtain ⟨htyp, hamt⟩ := hist
          cases htyp <;>
            · intro ht
              have ht2 : setContains (setRemove a.disputed x) t = true := ht
              show histContains a.transaction_history t = true
              exact ih t (setContains_remove_sub _ _ _ ht2)
      · rw [if_neg hd] at ht ⊢
        exact ih t ht
    | FailedWithdrawal =>
      rw [update_failed] at ht ⊢
      exact ih t ht
    | Unknown label =>
      rw [update_unknown] at ht ⊢
      exact ih t ht

/-!
Accounting: the balance contribution recorded by each history entry, and
the invariant `total = Σ entries` for deposit/withdrawal streams.
-/

/-- Contribution of a history entry to `total`: applied deposits add their
amount, accepted withdrawals subtract it, failed withdrawals contribute
nothing. -/
def entryDelta (h : TransactionHistoryRecord) : ℚ :=
  match h.typ with
  | TransactionType.Deposit => h.amount.toRat
  | TransactionType.Withdrawal => - h.amount.toRat
  | _ => 0

/-- The exact sum of applied deposit amounts minus accepted withdrawal
amounts, read off the history. -/
def histSum (m : List (Nat × TransactionHistoryRecord)) : ℚ :=
  (m.map (fun p => entryDelta p.2)).sum

theorem total_histSum_step (a : ClientAccount) (t : Transaction)
    (htyp : t.typ = TransactionType.Deposit ∨ t.typ = TransactionType.Withdrawal)
    (hinv : a.total.toRat = histSum a.transaction_history) :
    (ClientAccount.update a t).total.toRat =
      histSum (ClientAccount.update a t).transaction_history := by
  obtain ⟨typ, c, x, am⟩ := t
  have htyp2 : typ = TransactionType.Deposit ∨ typ = TransactionType.Withdrawal :=
    htyp
  rcases htyp2 with h | h <;> subst h
  · cases am with
    | none =>
      rw [update_deposit_none]
      exact hinv
    | some amt =>
      rw [update_deposit_some]
      by_cases hc : histContains a.transaction_history x = true
      · rw [if_pos hc]
        exact hinv
      · rw [if_neg hc]
        have hc2 : histContains a.transaction_history x = false := by
          revert hc
          cases histContains a.transaction_history x <;> simp
        show (Dec.add a.total amt).toRat =
          histSum (histInsert a.transaction_history x
            ⟨TransactionType.Deposit, amt⟩)
        rw [Dec.toRat_add]
        unfold histSum histInsert
        rw [eraseKey_of_not_contains _ _ hc2, List.map_cons, List.sum_cons]
        have : entryDelta ⟨TransactionType.Deposit, amt⟩ = amt.toRat := rfl
        rw [this, hinv]
        unfold histSum
        ring
  · cases am with
    | none =>
      rw [update_withdrawal_none]
      exact hinv
    | some amt =>
      rw [update_withdrawal_some]
      by_cases hc : histContains a.transaction_history x = true
      · rw [if_pos hc]
        exact hinv
      · rw [if_neg hc]
        have hc2 : histContains a.transaction_history x = false := by
          revert hc
          cases histContains a.transaction_history x <;> simp
        by_cases hb : Dec.ble dec00 (Dec.sub a.available amt) = true
        · rw [if_pos hb]
          show (Dec.sub a.total amt).toRat =
            histSum (histInsert a.transaction_history x
              ⟨TransactionType.Withdrawal, amt⟩)
          rw [Dec.toRat_sub]
          unfold histSum histInsert
          rw [eraseKey_of_not_contains _ _ hc2, List.map_cons, List.sum_cons]
          have : entryDelta ⟨TransactionType.Withdrawal, amt⟩ = - amt.toRat := rfl
          rw [this, hinv]
          unfold histSum
          ring
        · rw [if_neg hb]
          show a.total.toRat =
            histSum (histInsert a.transaction_history x
              ⟨TransactionType.FailedWithdrawal, amt⟩)
          unfold histSum histInsert
          rw [eraseKey_of_not_contains _ _ hc2, List.map_cons, List.sum_cons]
          have : entryDelta ⟨TransactionType.FailedWithdrawal, amt⟩ = 0 := rfl
          rw [this, hinv]
          unfold histSum
          ring

theorem total_histSum_fold (txs : List Transaction)
    (hdw : ∀ t ∈ txs,
      t.typ = TransactionType.Deposit ∨ t.typ = TransactionType.Withdrawal) :
    ∀ a : ClientAccount, a.total.toRat = histSum a.transaction_history →
      (txs.foldl ClientAccount.update a).total.toRat =
        histSum (txs.foldl ClientAccount.update a).transaction_history := by
  induction txs with
  | nil => intro a hinv; exact hinv
  | cons t rest ih =>
    intro a hinv
    rw [List.foldl_cons]
    exact ih (fun u hu => hdw u (List.mem_cons_of_mem t hu))
      (ClientAccount.update a t)
      (total_histSum_step a t (hdw t (List.mem_cons_self t rest)) hinv)

/-- A fresh account satisfies the accounting invariant. -/
theorem new_total_histSum (cid : Nat) :
    (ClientAccount.new cid).total.toRat =
      histSum (ClientAccount.new cid).transaction_history := by
  show dec00.toRat = histSum []
  rw [dec00_toRat]
  rfl

/-- Folding `n` fresh deposits of a fixed amount over ids `k, k+1, ...`
adds exactly `n` times the amount to `total`. -/
theorem deposit_run (amt : Dec) (c : Nat) :
    ∀ (n k : Nat) (a : ClientAccount),
      (∀ i, k ≤ i → histContains a.transaction_history i = false) →
      ((List.range' k n).foldl
        (fun s i => ClientAccount.update s (depositTx c i amt)) a).total.toRat
        = a.total.toRat + n * amt.toRat
  | 0, k, a, h => by simp
  | n + 1, k, a, h => by
    rw [List.range'_succ, List.foldl_cons]
    have hk : histContains a.transaction_history k = false := h k (le_refl k)
    have heq : ClientAccount.update a (depositTx c k amt) =
        { a with
          total := Dec.add a.total amt
          transaction_history :=
            histInsert a.transaction_history k
              ⟨TransactionType.Deposit, amt⟩ } := by
      show ClientAccount.update a ⟨TransactionType.Deposit, c, k, some amt⟩ = _
      rw [update_deposit_some, if_neg (by rw [hk]; simp)]
    rw [heq]
    have hfresh : ∀ i, k + 1 ≤ i →
        histContains
          (histInsert a.transaction_history k
            ⟨TransactionType.Deposit, amt⟩) i = false := by
      intro i hi
      rw [histContains_insert, if_neg (by omega : ¬ k = i)]
      exact h i (by omega)
    have := deposit_run amt c n (k + 1)
      { a with
        total := Dec.add a.total amt
        transaction_history :=
          histInsert a.transaction_history k ⟨TransactionType.Deposit, amt⟩ }
      hfresh
    rw [this]
    show (Dec.add a.total amt).toRat + n * amt.toRat =
      a.total.toRat + (n + 1 : Nat) * amt.toRat
    rw [Dec.toRat_add]
    push_cast
    ring

/-!
The `locked` flag: `update` never reads it, and only ever raises it.
-/

/-- Forget the lock flag: the projection of a state onto everything except
`locked`. -/
def eraseLock (a : ClientAccount) : ClientAccount := { a with locked := false }

theorem update_deposit_some_mk (i : Nat) (tot : Dec) (lk : Bool)
    (hist : List (Nat × TransactionHistoryRecord)) (disp : List Nat)
    (c x : Nat) (amt : Dec) :
    ClientAccount.update ⟨i, tot, lk, hist, disp⟩
        ⟨TransactionType.Deposit, c, x, some amt⟩ =
      if histContains hist x = true then ⟨i, tot, lk, hist, disp⟩
      else
        ⟨i, Dec.add tot amt, lk,
          histInsert hist x ⟨TransactionType.Deposit, amt⟩, disp⟩ := rfl

theorem update_withdrawal_some_mk (i : Nat) (tot : Dec) (lk : Bool)
    (hist : List (Nat × TransactionHistoryRecord)) (disp : List Nat)
    (c x : Nat) (amt : Dec) :
    ClientAccount.update ⟨i, tot, lk, hist, disp⟩
        ⟨TransactionType.Withdrawal, c, x, some amt⟩ =
      if histContains hist x = true then ⟨i, tot, lk, hist, disp⟩
      else
        if Dec.ble dec00
            (Dec.sub (ClientAccount.available ⟨i, tot, lk, hist, disp⟩) amt) =
            true then
          ⟨i, Dec.sub tot amt, lk,
            histInsert hist x ⟨TransactionType.Withdrawal, amt⟩, disp⟩
        else
          ⟨i, tot, lk,
            histInsert hist x ⟨TransactionType.FailedWithdrawal, amt⟩,
            disp⟩ := rfl

theorem update_dispute_mk (i : Nat) (tot : Dec) (lk : Bool)
    (hist : List (Nat × TransactionHistoryRecord)) (disp : List Nat)
    (c x : Nat) (am : Option Dec) :
    ClientAccount.update ⟨i, tot, lk, hist, disp⟩
        ⟨TransactionType.Dispute, c, x, am⟩ =
      if histContains hist x = true then ⟨i, tot, lk, hist, setInsert disp x⟩
      else ⟨i, tot, lk, hist, disp⟩ := rfl

theorem update_resolve_mk (i : Nat) (tot : Dec) (lk : Bool)
    (hist : List (Nat × TransactionHistoryRecord)) (disp : List Nat)
    (c x : Nat) (am : Option Dec) :
    ClientAccount.update ⟨i, tot, lk, hist, disp⟩
        ⟨TransactionType.Resolve, c, x, am⟩ =
      ⟨i, tot, lk, hist, setRemove disp x⟩ := rfl

theorem update_chargeback_mk (i : Nat) (tot : Dec) (lk : Bool)
    (hist : List (Nat × TransactionHistoryRecord)) (disp : List Nat)
    (c x : Nat) (am : Option Dec) :
    ClientAccount.update ⟨i, tot, lk, hist, disp⟩
        ⟨TransactionType.Chargeback, c, x, am⟩ =
      if setContains disp x = true then
        match histLookup hist x with
        | some hrec =>
            match hrec.typ with
            | TransactionType.Deposit =>
                ⟨i, Dec.sub tot hrec.amount, true, hist, setRemove disp x⟩
            | TransactionType.Withdrawal =>
                ⟨i, Dec.add tot hrec.amount, true, hist, setRemove disp x⟩
            | _ => ⟨i, tot, true, hist, setRemove disp x⟩
        | none => ⟨i, tot, lk, hist, disp⟩
      else ⟨i, tot, lk, hist, disp⟩ := rfl

/-- The available funds do not depend on the lock flag. -/
theorem available_mk_locked (i : Nat) (tot : Dec) (l1 l2 : Bool)
    (hist : List (Nat × TransactionHistoryRecord)) (disp : List Nat) :
    ClientAccount.available ⟨i, tot, l1, hist, disp⟩ =
      ClientAccount.available ⟨i, tot, l2, hist, disp⟩ := rfl

/-- `update` computes every non-lock field without reading `locked`. -/
theorem update_locked_indep (i : Nat) (tot : Dec) (l1 l2 : Bool)
    (hist : List (Nat × TransactionHistoryRecord)) (disp : List Nat)
    (t : Transaction) :
    eraseLock (ClientAccount.update ⟨i, tot, l1, hist, disp⟩ t) =
      eraseLock (ClientAccount.update ⟨i, tot, l2, hist, disp⟩ t) := by
  obtain ⟨typ, c, x, am⟩ := t
  cases typ with
  | Deposit =>
    cases am with
    | none => rfl
    | some amt =>
      rw [update_deposit_some_mk, update_deposit_some_mk]
      by_cases hc : histContains hist x = true
      · rw [if_pos hc, if_pos hc]
        rfl
      · rw [if_neg hc, if_neg hc]
        rfl
  | Withdrawal =>
    cases am with
    | none => rfl
    | some amt =>
      rw [update_withdrawal_some_mk, update_withdrawal_some_mk,
        available_mk_locked i tot l2 l1 hist disp]
      by_cases hc : histContains hist x = true
      · rw [if_pos hc, if_pos hc]
        rfl
      · rw [if_neg hc, if_neg hc]
        by_cases hb : Dec.ble dec00
            (Dec.sub (ClientAccount.available ⟨i, tot, l1, hist, disp⟩) amt) =
            true
        · rw [if_pos hb, if_pos hb]
          rfl
        · rw [if_neg hb, if_neg hb]
          rfl
  | Dispute =>
    rw [update_dispute_mk, update_dispute_mk]
    by_cases hc : histContains hist x = true
    · rw [if_pos hc, if_pos hc]
      rfl
    · rw [if_neg hc, if_neg hc]
      rfl
  | Resolve => rfl
  | Chargeback =>
    rw [update_chargeback_mk, update_chargeback_mk]
    by_cases hd : setContains disp x = true
    · rw [if_pos hd, if_pos hd]
      cases hl : histLookup hist x with
      | none => rfl
      | some hrec =>
        obtain ⟨htyp, hamt⟩ := hrec
        cases htyp <;> rfl
    · rw [if_neg hd, if_neg hd]
      rfl
  | FailedWithdrawal => rfl
  | Unknown label => rfl

/-- `update` only ever raises the lock flag, never lowers it. -/
theorem locked_monotone (a : ClientAccount) (t : Transaction)
    (h : a.locked = true) : (ClientAccount.update a t).locked = true := by
  obtain ⟨typ, c, x, am⟩ := t
  cases typ with
  | Deposit =>
    cases am with
    | none => exact h
    | some amt =>
      rw [update_deposit_some]
      by_cases hc : histContains a.transaction_history x = true
      · rw [if_pos hc]
        exact h
      · rw [if_neg hc]
        exact h
  | Withdrawal =>
    cases am with
    | none => exact h
    | some amt =>
      rw [update_withdrawal_some]
      by_cases hc : histContains a.transaction_history x = true
      · rw [if_pos hc]
        exact h
      · rw [if_neg hc]
        by_cases hb : Dec.ble dec00 (Dec.sub a.available amt) = true
        · rw [if_pos hb]
          exact h
        · rw [if_neg hb]
          exact h
  | Dispute =>
    rw [update_dispute]
    by_cases hc : histContains a.transaction_history x = true
    · rw [if_pos hc]
      exact h
    · rw [if_neg hc]
      exact h
  | Resolve => exact h
  | Chargeback =>
    rw [update_chargeback]
    by_cases hd : setContains a.disputed x = true
    · rw [if_pos hd]
      cases hl : histLookup a.transaction_history x with
      | none => exact h
      | some hrec =>
        obtain ⟨htyp, hamt⟩ := hrec
        cases htyp <;> rfl
    · rw [if_neg hd]
      exact h
  | FailedWithdrawal => exact h
  | Unknown label => exact h

/-!
Further helpers: duplicate ids are no-ops, and inserting a non-deposit
entry at a fresh id leaves `held` unchanged.
-/

/-- A Deposit or Withdrawal whose id is already in the history is dropped. -/
theorem update_dup_noop (a : ClientAccount) (t : Transaction)
    (htyp : t.typ = TransactionType.Deposit ∨
      t.typ = TransactionType.Withdrawal)
    (hc : histContains a.transaction_history t.tx = true) :
    ClientAccount.update a t = a := by
  obtain ⟨typ, c, x, am⟩ := t
  have htyp2 : typ = TransactionType.Deposit ∨
      typ = TransactionType.Withdrawal := htyp
  have hc2 : histContains a.transaction_history x = true := hc
  rcases htyp2 with h | h <;> subst h
  · cases am with
    | none => exact update_deposit_none a c x
    | some amt =>
      rw [update_deposit_some, if_pos hc2]
  · cases am with
    | none => exact update_withdrawal_none a c x
    | some amt =>
      rw [update_withdrawal_some, if_pos hc2]

theorem histLookup_eraseKey_ne (m : List (Nat × TransactionHistoryRecord))
    (k t : Nat) (hk : k ≠ t) :
    histLookup (eraseKey m k) t = histLookup m t := by
  induction m with
  | nil => rfl
  | cons p rest ih =>
    simp only [eraseKey]
    by_cases hp : p.1 = k
    · rw [if_pos hp, ih]
      have hpt : ¬ p.1 = t := by rw [hp]; exact hk
      simp only [histLookup, if_neg hpt]
    · rw [if_neg hp]
      simp only [histLookup]
      by_cases hpt : p.1 = t
      · rw [if_pos hpt, if_pos hpt]
      · rw [if_neg hpt, if_neg hpt, ih]

theorem histLookup_none_of_not_contains
    (m : List (Nat × TransactionHistoryRecord)) (k : Nat)
    (h : histContains m k = false) : histLookup m k = none := by
  cases hl : histLookup m k with
  | none => rfl
  | some v =>
    have := (histContains_iff_lookup m k).mpr ⟨v, hl⟩
    rw [h] at this
    exact absurd this (by simp)

theorem heldContrib_insert_eq (hist : List (Nat × TransactionHistoryRecord))
    (k : Nat) (v : TransactionHistoryRecord)
    (hvnd : ¬ v.typ = TransactionType.Deposit)
    (hfresh : histLookup hist k = none) (t : Nat) :
    heldContrib (histInsert hist k v) t = heldContrib hist t := by
  unfold heldContrib
  by_cases ht : k = t
  · subst ht
    rw [histLookup_insert_self, hfresh]
    show (if v.typ = TransactionType.Deposit then v.amount.toRat else 0) = 0
    rw [if_neg hvnd]
  · have hl : histLookup (histInsert hist k v) t = histLookup hist t := by
      show (if k = t then some v else histLookup (eraseKey hist k) t) =
        histLookup hist t
      rw [if_neg ht, histLookup_eraseKey_ne hist k t ht]
    rw [hl]

/-- Inserting a non-deposit entry at a fresh id leaves the held funds
unchanged. -/
theorem held_insert_non_deposit (a : ClientAccount) (k : Nat)
    (v : TransactionHistoryRecord)
    (hvnd : ¬ v.typ = TransactionType.Deposit)
    (hfresh : histLookup a.transaction_history k = none) :
    ({ a with transaction_history := histInsert a.transaction_history k v }
        : ClientAccount).held.toRat = a.held.toRat := by
  rw [held_toRat, held_toRat]
  show (a.disputed.map (heldContrib (histInsert a.transaction_history k v))).sum
    = (a.disputed.map (heldContrib a.transaction_history)).sum
  have hmap : a.disputed.map (heldContrib (histInsert a.transaction_history k v))
      = a.disputed.map (heldContrib a.transaction_history) := by
    induction a.disputed with
    | nil => rfl
    | cons y rest ih =>
      rw [List.map_cons, List.map_cons, ih,
        heldContrib_insert_eq a.transaction_history k v hvnd hfresh y]
  rw [hmap]

/-- Once a transaction id is in the history, no record ever removes it:
`update` only adds history entries (Dispute, Resolve and Chargeback never
touch the map, and inserts keep every present key). -/
theorem histContains_update_mono (a : ClientAccount) (t : Transaction)
    (k : Nat) (h : histContains a.transaction_history k = true) :
    histContains (ClientAccount.update a t).transaction_history k = true := by
  obtain ⟨typ, c, x, am⟩ := t
  cases typ with
  | Deposit =>
    cases am with
    | none => exact h
    | some amt =>
      rw [update_deposit_some]
      by_cases hc : histContains a.transaction_history x = true
      · rw [if_pos hc]
        exact h
      · rw [if_neg hc]
        show histContains (histInsert a.transaction_history x
          ⟨TransactionType.Deposit, amt⟩) k = true
        rw [histContains_insert]
        by_cases hk : x = k
        · rw [if_pos hk]
        · rw [if_neg hk]
          exact h
  | Withdrawal =>
    cases am with
    | none => exact h
    | some amt =>
      rw [update_withdrawal_some]
      by_cases hc : histContains a.transaction_history x = true
      · rw [if_pos hc]
        exact h
      · rw [if_neg hc]
        by_cases hb : Dec.ble dec00 (Dec.sub a.available amt) = true
        · rw [if_pos hb]
          show histContains (histInsert a.transaction_history x
            ⟨TransactionType.Withdrawal, amt⟩) k = true
          rw [histContains_insert]
          by_cases hk : x = k
          · rw [if_pos hk]
          · rw [if_neg hk]
            exact h
        · rw [if_neg hb]
          show histContains (histInsert a.transaction_history x
            ⟨TransactionType.FailedWithdrawal, amt⟩) k = true
          rw [histContains_insert]
          by_cases hk : x = k
          · rw [if_pos hk]
          · rw [if_neg hk]
            exact h
  | Dispute =>
    rw [update_dispute]
    by_cases hc : histContains a.transaction_history x = true
    · rw [if_pos hc]
      exact h
    · rw [if_neg hc]
      exact h
  | Resolve => exact h
  | Chargeback =>
    rw [update_chargeback]
    by_cases hd : setContains a.disputed x = true
    · rw [if_pos hd]
      cases hl : histLookup a.transaction_history x with
      | none => exact h
      | some hrec =>
        obtain ⟨htyp, hamt⟩ := hrec
        cases htyp <;> exact h
    · rw [if_neg hd]
      exact h
  | FailedWithdrawal => exact h
  | Unknown label => exact h

/-- History membership persists across any further stream of records. -/
theorem histContains_fold_mono (rest : List Transaction) :
    ∀ (a : ClientAccount) (k : Nat),
      histContains a.transaction_history k = true →
      histContains
        (rest.foldl ClientAccount.update a).transaction_history k = true := by
  induction rest with
  | nil =>
    intro a k h
    exact h
  | cons t ts ih =>
    intro a k h
    rw [List.foldl_cons]
    exact ih (ClientAccount.update a t) k (histContains_update_mono a t k h)

/-!
The claims.
-/

/-- The ledger after Deposit{id 0, amount 1.1111} then Dispute{0} on a
fresh account. -/
def c1State1 : ClientAccount :=
  ClientAccount.update
    (ClientAccount.update (ClientAccount.new 1) (depositTx 1 0 d11111))
    (disputeTx 1 0)

/-- `c1State1` after Chargeback{0}. -/
def c1State2 : ClientAccount :=
  ClientAccount.update c1State1 (chargebackTx 1 0)

/-- C1: starting from a freshly created ledger, Deposit{0, 1.1111} then
Dispute{0} yields available 0.0000, held 1.1111, total 1.1111; the further
Chargeback{0} yields total 0.0000, held 0.0000, available 0.0000 and a
locked account. -/
theorem claim_c1 :
    c1State1.available.toRat = 0 ∧
    c1State1.held.toRat = 11111 / 10000 ∧
    c1State1.total.toRat = 11111 / 10000 ∧
    c1State2.total.toRat = 0 ∧
    c1State2.held.toRat = 0 ∧
    c1State2.available.toRat = 0 ∧
    c1State2.locked = true := by
  have h1 : c1State1.available = (⟨0, 1⟩ : Dec) := rfl
  have h2 : c1State1.held = (⟨11111, 4⟩ : Dec) := rfl
  have h3 : c1State1.total = (⟨11111, 4⟩ : Dec) := rfl
  have h4 : c1State2.total = (⟨0, 4⟩ : Dec) := rfl
  have h5 : c1State2.held = (⟨0, 1⟩ : Dec) := rfl
  have h6 : c1State2.available = (⟨0, 1⟩ : Dec) := rfl
  refine ⟨?_, ?_, ?_, ?_, ?_, ?_, rfl⟩
  · rw [h1]
    norm_num [Dec.toRat]
  · rw [h2]
    norm_num [Dec.toRat]
  · rw [h3]
    norm_num [Dec.toRat]
  · rw [h4]
    norm_num [Dec.toRat]
  · rw [h5]
    norm_num [Dec.toRat]
  · rw [h6]
    norm_num [Dec.toRat]

/-- C2: in every ledger state — unconditionally — held is the sum over the
disputed set of the amounts of exactly the ids whose history entry is a
Deposit, and available is max(total - held, 0); consequently disputing an
id whose history entry is a Withdrawal changes neither held nor
available. -/
theorem claim_c2 (a : ClientAccount) (c txid : Nat) :
    a.held.toRat = heldSpec a ∧
    a.available.toRat = max (a.total.toRat - a.held.toRat) 0 ∧
    (∀ h : TransactionHistoryRecord,
      histLookup a.transaction_history txid = some h →
      h.typ = TransactionType.Withdrawal →
      (ClientAccount.update a (disputeTx c txid)).held.toRat = a.held.toRat ∧
      (ClientAccount.update a (disputeTx c txid)).available.toRat =
        a.available.toRat) := by
  refine ⟨held_toRat a, available_toRat a, ?_⟩
  intro h hlook hW
  have hcont : histContains a.transaction_history txid = true :=
    (histContains_iff_lookup a.transaction_history txid).mpr ⟨h, hlook⟩
  have hu : ClientAccount.update a (disputeTx c txid) =
      { a with disputed := setInsert a.disputed txid } := by
    show ClientAccount.update a ⟨TransactionType.Dispute, c, txid, none⟩ = _
    rw [update_dispute, if_pos hcont]
  have hheld : (ClientAccount.update a (disputeTx c txid)).held.toRat =
      a.held.toRat := by
    rw [hu, held_toRat, held_toRat]
    show ((setInsert a.disputed txid).map
        (heldContrib a.transaction_history)).sum =
      (a.disputed.map (heldContrib a.transaction_history)).sum
    unfold setInsert
    by_cases hd : setContains a.disputed txid = true
    · rw [if_pos hd]
    · rw [if_neg hd, List.map_cons, List.sum_cons]
      have hz : heldContrib a.transaction_history txid = 0 := by
        unfold heldContrib
        rw [hlook]
        show (if h.typ = TransactionType.Deposit then h.amount.toRat else 0) = 0
        rw [if_neg (by rw [hW]; simp)]
      rw [hz, zero_add]
  have htot : (ClientAccount.update a (disputeTx c txid)).total = a.total := by
    rw [hu]
  refine ⟨hheld, ?_⟩
  rw [available_toRat, available_toRat, htot, hheld]

/-- A state with an accepted deposit and an accepted withdrawal, used to
instantiate the dispute-a-withdrawal part of C2. -/
def c2State : ClientAccount :=
  ClientAccount.update
    (ClientAccount.update (ClientAccount.new 1) (depositTx 1 0 d11111))
    (withdrawalTx 1 1 d01111)

theorem claim_c2_witness :
    (ClientAccount.update c2State (disputeTx 1 1)).held.toRat =
      c2State.held.toRat :=
  ((claim_c2 c2State 1 1).2.2 ⟨TransactionType.Withdrawal, d01111⟩
    (by decide) rfl).1

/-- C3: a Withdrawal at a fresh id with its amount present either passes
the availability check — total drops by the amount and a Withdrawal entry
is recorded — or fails it: the balance-relevant state (total, locked,
disputed, held, available) is untouched and a FailedWithdrawal entry is
recorded; either way the id is consumed and a Deposit/Withdrawal under it
is a no-op after arbitrarily many further records of any kind.  The
availability check is exactly `available - amount >= 0`. -/
theorem claim_c3 (a : ClientAccount) (c txid : Nat) (amt : Dec)
    (hfresh : histContains a.transaction_history txid = false) :
    (Dec.ble dec00 (Dec.sub a.available amt) = true →
      (ClientAccount.update a (withdrawalTx c txid amt)).total.toRat =
        a.total.toRat - amt.toRat ∧
      histLookup
        (ClientAccount.update a (withdrawalTx c txid amt)).transaction_history
        txid = some ⟨TransactionType.Withdrawal, amt⟩) ∧
    (¬ Dec.ble dec00 (Dec.sub a.available amt) = true →
      (ClientAccount.update a (withdrawalTx c txid amt)).total = a.total ∧
      (ClientAccount.update a (withdrawalTx c txid amt)).locked = a.locked ∧
      (ClientAccount.update a (withdrawalTx c txid amt)).disputed =
        a.disputed ∧
      (ClientAccount.update a (withdrawalTx c txid amt)).held.toRat =
        a.held.toRat ∧
      (ClientAccount.update a (withdrawalTx c txid amt)).available.toRat =
        a.available.toRat ∧
      histLookup
        (ClientAccount.update a (withdrawalTx c txid amt)).transaction_history
        txid = some ⟨TransactionType.FailedWithdrawal, amt⟩) ∧
    (Dec.ble dec00 (Dec.sub a.available amt) = true ↔
      0 ≤ a.available.toRat - amt.toRat) ∧
    histContains
      (ClientAccount.update a (withdrawalTx c txid amt)).transaction_history
      txid = true ∧
    (∀ (rest : List Transaction) (t2 : Transaction),
      (t2.typ = TransactionType.Deposit ∨
        t2.typ = TransactionType.Withdrawal) →
      t2.tx = txid →
      ClientAccount.update
        (rest.foldl ClientAccount.update
          (ClientAccount.update a (withdrawalTx c txid amt))) t2 =
        rest.foldl ClientAccount.update
          (ClientAccount.update a (withdrawalTx c txid amt))) := by
  have hfresh2 : ¬ histContains a.transaction_history txid = true := by
    rw [hfresh]
    simp
  have hgb : Dec.ble dec00 (Dec.sub a.available amt) = true ↔
      0 ≤ a.available.toRat - amt.toRat := by
    rw [Dec.ble_iff, dec00_toRat, Dec.toRat_sub]
  by_cases hb : Dec.ble dec00 (Dec.sub a.available amt) = true
  · have hu : ClientAccount.update a (withdrawalTx c txid amt) =
        { a with
          total := Dec.sub a.total amt
          transaction_history := histInsert a.transaction_history txid
            ⟨TransactionType.Withdrawal, amt⟩ } := by
      show ClientAccount.update a
        ⟨TransactionType.Withdrawal, c, txid, some amt⟩ = _
      rw [update_withdrawal_some, if_neg hfresh2, if_pos hb]
    have hcont : histContains
        (ClientAccount.update a (withdrawalTx c txid amt)).transaction_history
        txid = true := by
      rw [hu]
      show histContains (histInsert a.transaction_history txid
        ⟨TransactionType.Withdrawal, amt⟩) txid = true
      rw [histContains_insert]
      simp
    refine ⟨fun _ => ⟨?_, ?_⟩, fun hnb => absurd hb hnb, hgb, hcont, ?_⟩
    · rw [hu]
      show (Dec.sub a.total amt).toRat = a.total.toRat - amt.toRat
      exact Dec.toRat_sub a.total amt
    · rw [hu]
      show histLookup (histInsert a.transaction_history txid
        ⟨TransactionType.Withdrawal, amt⟩) txid = _
      exact histLookup_insert_self _ _ _
    · intro rest t2 ht2 htx
      apply update_dup_noop _ _ ht2
      rw [htx]
      exact histContains_fold_mono rest _ txid hcont
  · have hu : ClientAccount.update a (withdrawalTx c txid amt) =
        { a with
          transaction_history := histInsert a.transaction_history txid
            ⟨TransactionType.FailedWithdrawal, amt⟩ } := by
      show ClientAccount.update a
        ⟨TransactionType.Withdrawal, c, txid, some amt⟩ = _
      rw [update_withdrawal_some, if_neg hfresh2, if_neg hb]
    have hlooknone : histLookup a.transaction_history txid = none :=
      histLookup_none_of_not_contains _ _ hfresh
    have hheld2 : (ClientAccount.update a
        (withdrawalTx c txid amt)).held.toRat = a.held.toRat := by
      rw [hu]
      exact held_insert_non_deposit a txid
        ⟨TransactionType.FailedWithdrawal, amt⟩ (by simp) hlooknone
    have hcont : histContains
        (ClientAccount.update a (withdrawalTx c txid amt)).transaction_history
        txid = true := by
      rw [hu]
      show histContains (histInsert a.transaction_history txid
        ⟨TransactionType.FailedWithdrawal, amt⟩) txid = true
      rw [histContains_insert]
      simp
    refine ⟨fun hbb => absurd hbb hb, fun _ => ⟨?_, ?_, ?_, hheld2, ?_, ?_⟩,
      hgb, hcont, ?_⟩
    · rw [hu]
    · rw [hu]
    · rw [hu]
    · rw [available_toRat, available_toRat, hheld2]
      rw [show (ClientAccount.update a (withdrawalTx c txid amt)).total =
        a.total from by rw [hu]]
    · rw [hu]
      show histLookup (histInsert a.transaction_history txid
        ⟨TransactionType.FailedWithdrawal, amt⟩) txid = _
      exact histLookup_insert_self _ _ _
    · intro rest t2 ht2 htx
      apply update_dup_noop _ _ ht2
      rw [htx]
      exact histContains_fold_mono rest _ txid hcont

/-- A state holding one accepted deposit of 1.1111, used to instantiate
C3's accepted-withdrawal branch. -/
def c3Base : ClientAccount :=
  ClientAccount.update (ClientAccount.new 1) (depositTx 1 0 d11111)

theorem claim_c3_witness :
    (ClientAccount.update c3Base (withdrawalTx 1 1 d01111)).total.toRat =
      c3Base.total.toRat - d01111.toRat :=
  ((claim_c3 c3Base 1 1 d01111 (by decide)).1 (by decide)).1

/-- C4: over any stream of Deposit/Withdrawal records with unique ids and
amounts present, total equals the exact sum of applied deposit amounts
minus accepted withdrawal amounts (read off the history, which records
exactly the applied deposits and accepted withdrawals); in particular
100000 deposits of 0.1111 yield total exactly 11110. -/
theorem claim_c4 (txs : List Transaction) (cid : Nat)
    (hdw : ∀ t ∈ txs,
      (t.typ = TransactionType.Deposit ∨
        t.typ = TransactionType.Withdrawal) ∧
      t.amount.isSome = true)
    (huniq : (txs.map Transaction.tx).Nodup) :
    (txs.foldl ClientAccount.update (ClientAccount.new cid)).total.toRat =
      histSum (txs.foldl ClientAccount.update
        (ClientAccount.new cid)).transaction_history ∧
    ((List.range 100000).foldl
      (fun s i => ClientAccount.update s (depositTx 1 i d01111))
      (ClientAccount.new 1)).total.toRat = 11110 := by
  constructor
  · exact total_histSum_fold txs (fun t ht => (hdw t ht).1)
      (ClientAccount.new cid) (new_total_histSum cid)
  · rw [List.range_eq_range']
    rw [deposit_run d01111 1 100000 0 (ClientAccount.new 1) (fun i _ => rfl)]
    have h1 : (ClientAccount.new 1).total.toRat = 0 := by
      show dec00.toRat = 0
      exact dec00_toRat
    have h2 : d01111.toRat = 1111 / 10000 := by
      norm_num [d01111, Dec.toRat]
    rw [h1, h2]
    norm_num

theorem claim_c4_witness :
    ([depositTx 1 0 d11111].foldl ClientAccount.update
      (ClientAccount.new 1)).total.toRat =
      histSum ([depositTx 1 0 d11111].foldl ClientAccount.update
        (ClientAccount.new 1)).transaction_history :=
  (claim_c4 [depositTx 1 0 d11111] 1 (by decide) (by decide)).1

/-- C5: a Chargeback whose id is not disputed is a no-op; in a reachable
state, a Chargeback on a disputed id removes the id from the disputed set
and locks the account; and once locked, the account stays locked under
every further record. -/
theorem claim_c5 (a : ClientAccount) (c txid : Nat) (hr : Reachable a) :
    (setContains a.disputed txid = false →
      ClientAccount.update a (chargebackTx c txid) = a) ∧
    (setContains a.disputed txid = true →
      setContains (ClientAccount.update a (chargebackTx c txid)).disputed
        txid = false ∧
      (ClientAccount.update a (chargebackTx c txid)).locked = true) ∧
    (∀ t : Transaction, a.locked = true →
      (ClientAccount.update a t).locked = true) := by
  refine ⟨?_, ?_, fun t h => locked_monotone a t h⟩
  · intro hd
    show ClientAccount.update a ⟨TransactionType.Chargeback, c, txid, none⟩ = a
    rw [update_chargeback, if_neg (by rw [hd]; simp)]
  · intro hd
    have hcont := reachable_disputed_in_history a hr txid hd
    obtain ⟨h, hl⟩ := (histContains_iff_lookup _ _).mp hcont
    obtain ⟨htyp, hamt⟩ := h
    show setContains (ClientAccount.update a
        ⟨TransactionType.Chargeback, c, txid, none⟩).disputed txid = false ∧
      (ClientAccount.update a
        ⟨TransactionType.Chargeback, c, txid, none⟩).locked = true
    rw [update_chargeback, if_pos hd, hl]
    cases htyp <;>
      exact ⟨setContains_remove_self a.disputed txid, rfl⟩

/-- A reachable state with a disputed deposit, used to instantiate C5. -/
def c5State : ClientAccount :=
  ClientAccount.update
    (ClientAccount.update (ClientAccount.new 1) (depositTx 1 0 d11111))
    (disputeTx 1 0)

theorem claim_c5_witness :
    setContains
      (ClientAccount.update c5State (chargebackTx 1 0)).disputed 0 = false ∧
    (ClientAccount.update c5State (chargebackTx 1 0)).locked = true :=
  (claim_c5 c5State 1 0
    (Reachable.step _ _ (Reachable.step _ _ (Reachable.base 1)))).2.1
    (by decide)

/-- A state whose history holds a FailedWithdrawal at id 1 (withdrawal of
2.0 against available 1.1111), with that id disputed. -/
def c6State : ClientAccount :=
  ClientAccount.update
    (ClientAccount.update
      (ClientAccount.update (ClientAccount.new 1) (depositTx 1 0 d11111))
      (withdrawalTx 1 1 d20))
    (disputeTx 1 1)

/-- C6 fails as stated: charging back a disputed FailedWithdrawal does
leave total unchanged, but it is not limited to removing the id from the
disputed set — it also sets `locked` (the lock is raised before the
per-type balance match).  Concretely: deposit 1.1111, withdraw 2.0
(recorded FailedWithdrawal), dispute it, charge it back: the account goes
from unlocked to locked. -/
theorem claim_c6_counterexample :
    setContains c6State.disputed 1 = true ∧
    histLookup c6State.transaction_history 1 =
      some ⟨TransactionType.FailedWithdrawal, d20⟩ ∧
    c6State.locked = false ∧
    (ClientAccount.update c6State (chargebackTx 1 1)).locked = true ∧
    (ClientAccount.update c6State (chargebackTx 1 1)).total = c6State.total := by
  decide

/-- C6 (amended): for every state in which id t is disputed and its history
entry is a FailedWithdrawal, Chargeback{t} leaves total (and the history)
unchanged and has no effect beyond removing t from the disputed set and
setting locked to true. -/
theorem claim_c6_amended (a : ClientAccount) (c txid : Nat)
    (h : TransactionHistoryRecord)
    (hd : setContains a.disputed txid = true)
    (hl : histLookup a.transaction_history txid = some h)
    (hF : h.typ = TransactionType.FailedWithdrawal) :
    ClientAccount.update a (chargebackTx c txid) =
      { a with disputed := setRemove a.disputed txid, locked := true } := by
  obtain ⟨htyp, hamt⟩ := h
  have hF2 : htyp = TransactionType.FailedWithdrawal := hF
  subst hF2
  show ClientAccount.update a ⟨TransactionType.Chargeback, c, txid, none⟩ = _
  rw [update_chargeback, if_pos hd, hl]

theorem claim_c6_witness :
    ClientAccount.update c6State (chargebackTx 1 1) =
      { c6State with
        disputed := setRemove c6State.disputed 1
        locked := true } :=
  claim_c6_amended c6State 1 1 ⟨TransactionType.FailedWithdrawal, d20⟩
    (by decide) (by decide) rfl

/-- C7: a Deposit or Withdrawal whose id is already in the history leaves
the whole state unchanged; equivalently, applying such a record twice in
succession is the same as applying it once. -/
theorem claim_c7 (a : ClientAccount) (t : Transaction)
    (htyp : t.typ = TransactionType.Deposit ∨
      t.typ = TransactionType.Withdrawal) :
    (histContains a.transaction_history t.tx = true →
      ClientAccount.update a t = a) ∧
    ClientAccount.update (ClientAccount.update a t) t =
      ClientAccount.update a t := by
  refine ⟨fun hc => update_dup_noop a t htyp hc, ?_⟩
  by_cases hc : histContains a.transaction_history t.tx = true
  · rw [update_dup_noop a t htyp hc]
    exact update_dup_noop a t htyp hc
  · obtain ⟨typ, c, x, am⟩ := t
    have htyp2 : typ = TransactionType.Deposit ∨
        typ = TransactionType.Withdrawal := htyp
    have hc2 : ¬ histContains a.transaction_history x = true := hc
    rcases htyp2 with h | h <;> subst h
    · cases am with
      | none => simp only [update_deposit_none]
      | some amt =>
        apply update_dup_noop
        · exact Or.inl rfl
        · rw [update_deposit_some, if_neg hc2]
          show histContains (histInsert a.transaction_history x
            ⟨TransactionType.Deposit, amt⟩) x = true
          rw [histContains_insert]
          simp
    · cases am with
      | none => simp only [update_withdrawal_none]
      | some amt =>
        apply update_dup_noop
        · exact Or.inr rfl
        · rw [update_withdrawal_some, if_neg hc2]
          by_cases hb : Dec.ble dec00 (Dec.sub a.available amt) = true
          · rw [if_pos hb]
            show histContains (histInsert a.transaction_history x
              ⟨TransactionType.Withdrawal, amt⟩) x = true
            rw [histContains_insert]
            simp
          · rw [if_neg hb]
            show histContains (histInsert a.transaction_history x
              ⟨TransactionType.FailedWithdrawal, amt⟩) x = true
            rw [histContains_insert]
            simp

theorem claim_c7_witness :
    ClientAccount.update
      (ClientAccount.update (ClientAccount.new 2) (depositTx 1 0 d11111))
      (depositTx 1 0 d11111) =
      ClientAccount.update (ClientAccount.new 2) (depositTx 1 0 d11111) :=
  (claim_c7 (ClientAccount.new 2) (depositTx 1 0 d11111) (Or.inl rfl)).2

/-- C8: applying any record to the ledger book always succeeds: the
client's ledger is looked up or lazily created, the record is forwarded,
and the result is `Ok`; inapplicable records (e.g. an Unknown type) are
absorbed as no-ops inside the account transition. -/
theorem claim_c8 (b : ClientAccounts) (t : Transaction) :
    (∃ b2, ClientAccounts.update b t = Except.ok b2 ∧
      mapContains b2.map t.client = true) ∧
    (∀ (a : ClientAccount) (label : String) (c x : Nat) (am : Option Dec),
      ClientAccount.update a ⟨TransactionType.Unknown label, c, x, am⟩ = a) := by
  constructor
  · unfold ClientAccounts.update
    cases hm : mapLookup b.map t.client with
    | none => exact ⟨_, rfl, mapContains_insertB_self _ _ _⟩
    | some acct => exact ⟨_, rfl, mapContains_insertB_self _ _ _⟩
  · intro a label c x am
    exact update_unknown a label c x am

/-- The ledger book after a single deposit of 0.1111 for client 1. -/
def c9Book : ClientAccounts :=
  match ClientAccounts.update ClientAccounts.new (depositTx 1 0 d01111) with
  | Except.ok b => b
  | Except.error _ => ClientAccounts.new

/-- Client 1's account inside `c9Book`. -/
def c9Acct : ClientAccount :=
  ClientAccount.update (ClientAccount.new 1) (depositTx 1 0 d01111)

/-- C9 fails as stated: the export does emit the header and one row per
client, but the values are rendered at each `Decimal`'s own scale, not
always at 4 fractional digits.  The held funds of an account with no
disputed deposits are the untouched literal `dec!(0.0)` of scale 1, and
its row renders `held` as `0.0` — one fractional digit (this matches the
repository's own `client_accounts_should_write_csv` test, whose expected
row is `1,5555.0000,0.0,5555.0000,false`). -/
theorem claim_c9_counterexample :
    ClientAccounts.write_csv c9Book =
      "id,available,held,total,locked\n1,0.1111,0.0,0.1111,false\n" ∧
    mapLookup c9Book.map 1 = some c9Acct ∧
    fracDigitCount (Dec.render c9Acct.held) = 1 := by
  decide

/-- C9 (amended): the export emits the header `id,available,held,total,
locked` followed by one newline-terminated row per client; available, held
and total are rendered with as many fractional digits as their decimal
scale — exactly 4 whenever the scale is 4 (every value produced by
arithmetic on 4-digit amounts), but the pristine zero `held` of an account
with no disputes renders as `0.0` with a single fractional digit. -/
theorem claim_c9_amended (b : ClientAccounts) (d : Dec) (a : ClientAccount)
    (h4 : d.s = 4) (hnd : a.disputed = []) :
    ClientAccounts.write_csv b =
      "id,available,held,total,locked\n" ++
        String.join (b.map.map
          (fun p => ClientAccount.serializeRow p.2 ++ "\n")) ∧
    fracDigitCount (Dec.render d) = 4 ∧
    fracDigitCount (Dec.render a.held) = 1 := by
  refine ⟨rfl, ?_, ?_⟩
  · exact h4 ▸ fracDigitCount_render d (by omega)
  · have hh : a.held = dec00 := by
      unfold ClientAccount.held
      rw [hnd]
      rfl
    rw [hh]
    decide

theorem claim_c9_witness :
    fracDigitCount (Dec.render d11111) = 4 :=
  (claim_c9_amended c9Book d11111 (ClientAccount.new 7) rfl rfl).2.1

/-- C10: the lock flag never influences processing — applying any record
to two states that differ only in `locked` yields states that again differ
only in `locked`. -/
theorem claim_c10 (a1 a2 : ClientAccount) (t : Transaction)
    (h : eraseLock a1 = eraseLock a2) :
    eraseLock (ClientAccount.update a1 t) =
      eraseLock (ClientAccount.update a2 t) := by
  obtain ⟨i1, tot1, l1, hist1, disp1⟩ := a1
  obtain ⟨i2, tot2, l2, hist2, disp2⟩ := a2
  have h2 : (⟨i1, tot1, false, hist1, disp1⟩ : ClientAccount) =
      ⟨i2, tot2, false, hist2, disp2⟩ := h
  injection h2 with e1 e2 e3 e4 e5
  subst e1
  subst e2
  subst e4
  subst e5
  exact update_locked_indep i1 tot1 l1 l2 hist1 disp1 t

theorem claim_c10_witness :
    eraseLock (ClientAccount.update (ClientAccount.new 3)
      (depositTx 3 0 d01111)) =
      eraseLock (ClientAccount.update
        { ClientAccount.new 3 with locked := true } (depositTx 3 0 d01111)) :=
  claim_c10 (ClientAccount.new 3) { ClientAccount.new 3 with locked := true }
    (depositTx 3 0 d01111) rfl
